import Mathlib

/-!
Shallow embedding of the UnarySim stochastic-computing kernels
(`kernel/add.py`, `kernel/mul.py`, `kernel/linear.py`, `sw/kernel/relu.py`,
`sw/kernel/linear.py`) and proofs about them.

Bit tensors carry {0,1} values; a single output lane is modelled by the
list of its input-lane bits along the reduction axis.  Mutable per-lane
state (accumulators, cycle-index counters, shift registers) is threaded
explicitly through pure step functions written in the source's program
order.
-/

/-- `UnaryAdd.forward`, scaled branch (kernel/add.py lines 34-48), for one
output lane: `acc_bound` is refilled from the input's reduction-axis size,
the cycle's input-bit sum is added to the accumulator, the output is
`accumulator >= acc_bound`, and `output * acc_bound` is subtracted.
Returns `(output, new accumulator)`. -/
def unaryAddScaledStep (acc : Int) (bits : List Int) : Int × Int :=
  let acc_bound : Int := bits.length
  let acc1 : Int := acc + bits.sum
  let output : Int := if acc_bound ≤ acc1 then 1 else 0
  (output, acc1 - output * acc_bound)

/-- Iterated `UnaryAdd.forward` (scaled) over a history of cycles; returns
the emitted output bits and the final accumulator. -/
def unaryAddScaledRun (acc : Int) : List (List Int) → List Int × Int
  | [] => ([], acc)
  | c :: rest =>
    ((unaryAddScaledStep acc c).1 :: (unaryAddScaledRun (unaryAddScaledStep acc c).2 rest).1,
     (unaryAddScaledRun (unaryAddScaledStep acc c).2 rest).2)

/-- `UnaryLinear.forward`, scaled branch (sw/kernel/linear.py lines 105-116),
for one output lane: `acc_bound` is fixed at construction
(`in_features + bias`), the cycle's kernel output `k` is added to the
accumulator, the output is `accumulator >= acc_bound`, and
`output * acc_bound` is subtracted. -/
def unaryLinearScaledStep (acc_bound acc k : Int) : Int × Int :=
  let acc1 : Int := acc + k
  let output : Int := if acc_bound ≤ acc1 then 1 else 0
  (output, acc1 - output * acc_bound)

/-- C1: for scaled `UnaryAdd` (and likewise `UnaryLinear`'s scaled
accumulation), each forward call adds the cycle's input-bit sum along the
reduction axis to the accumulator, outputs 1 iff the accumulator is then
at least the bound, and subtracts `bound * output`; in particular with
4 lanes carrying bits `[1,0,1,1]`, accumulator 2 and bound 4, the call
outputs 1 and leaves the accumulator at 1. -/
theorem unaryAdd_scaled_forward_spec :
    (∀ (acc : Int) (bits : List Int),
      ((unaryAddScaledStep acc bits).1 = 1 ↔ (bits.length : Int) ≤ acc + bits.sum) ∧
      ((unaryAddScaledStep acc bits).1 = 0 ∨ (unaryAddScaledStep acc bits).1 = 1) ∧
      (unaryAddScaledStep acc bits).2
        = acc + bits.sum - (unaryAddScaledStep acc bits).1 * (bits.length : Int)) ∧
    (∀ (acc_bound acc k : Int),
      ((unaryLinearScaledStep acc_bound acc k).1 = 1 ↔ acc_bound ≤ acc + k) ∧
      (unaryLinearScaledStep acc_bound acc k).2
        = acc + k - (unaryLinearScaledStep acc_bound acc k).1 * acc_bound) ∧
    unaryAddScaledStep 2 [1, 0, 1, 1] = (1, 1) := by
  refine ⟨fun acc bits => ?_, fun acc_bound acc k => ?_, by decide⟩
  · unfold unaryAddScaledStep
    by_cases h : (bits.length : Int) ≤ acc + bits.sum <;> simp [h]
  · unfold unaryLinearScaledStep
    by_cases h : acc_bound ≤ acc + k <;> simp [h]

/-- `GainesAdd.__init__` (kernel/add.py lines 57-78): rejects
`mode=="bipolar"` with `scaled=False` by raising a `ValueError`; otherwise
the instance's `rng_idx` register starts at 0. -/
def gainesAddInit (mode : String) (scaled : Bool) : Option Nat :=
  if mode == "bipolar" && !scaled then none else some 0

/-- `GainesAdd.forward`, scaled branch (kernel/add.py lines 80-86), for one
output lane: `rngSeq` is the externally supplied random sequence,
`rng_idx` the current position.  `randNum := rngSeq[rng_idx]` must be
strictly below the reduction-axis size (the Python `assert`, modelled as
returning `none`); on success the selected lane is emitted and `rng_idx`
advances by 1 modulo `rngSeq.length`. -/
def gainesAddScaledStep (rngSeq : List Nat) (rng_idx : Nat) (input : List Int) :
    Option (Int × Nat) :=
  if hidx : rng_idx < rngSeq.length then
    if hr : rngSeq.get ⟨rng_idx, hidx⟩ < input.length then
      some (input.get ⟨rngSeq.get ⟨rng_idx, hidx⟩, hr⟩, (rng_idx + 1) % rngSeq.length)
    else none
  else none

/-- `FSUMul.__init__` (kernel/mul.py lines 10-47): `static=False` raises a
`ValueError` ("FSUMul in-stream mode is not implemented"); in static mode
the `rng_idx`/`rng_idx_inv` registers start at 0. -/
def fsuMulInit (static : Bool) : Option (Nat × Nat) :=
  if static then some (0, 0) else none

/-- `FSUMul.FSUMul_forward`, static unipolar branch (kernel/mul.py lines
49-58): `gen` abstracts the bitstream generator `self.bs` (a pure function
of the counter position, spec section 4.1).  `path_0` is the AND of the live
input bit with the generated bit at `rng_idx`, and `rng_idx` advances by the
input bit value.  Returns `(output, new rng_idx)`. -/
def fsuMulStepUni (gen : Nat → Nat) (rng_idx : Nat) (input : Nat) : Nat × Nat :=
  let path_0 : Nat := input &&& gen rng_idx
  let rng_idx1 : Nat := rng_idx + input
  (path_0, rng_idx1)

/-- `FSUMul.FSUMul_forward`, static bipolar branch (kernel/mul.py lines
49-64): additionally `path_1` is the AND of the complemented input bit with
the complement of the bit generated at `rng_idx_inv`, `rng_idx_inv`
advances by the complemented input bit, and the output is
`path_0 OR path_1`.  State is `(rng_idx, rng_idx_inv)`. -/
def fsuMulStepBip (gen : Nat → Nat) (st : Nat × Nat) (input : Nat) :
    Nat × (Nat × Nat) :=
  let path_0 : Nat := input &&& gen st.1
  let rng_idx1 : Nat := st.1 + input
  let path_1 : Nat := (1 - input) &&& (1 - gen st.2)
  let rng_idx_inv1 : Nat := st.2 + (1 - input)
  (path_0 ||| path_1, (rng_idx1, rng_idx_inv1))

/-- Iterated static bipolar `FSUMul` forward calls; returns the final
`(rng_idx, rng_idx_inv)` pair. -/
def fsuMulBipRun (gen : Nat → Nat) (st : Nat × Nat) : List Nat → Nat × Nat
  | [] => st
  | i :: rest => fsuMulBipRun gen (fsuMulStepBip gen st i).2 rest

/-- Python truthiness of a string literal: nonempty strings are truthy. -/
def pyStrTruthy (s : String) : Bool := !s.isEmpty

/-- Python `str.lower()`: lower-case every character. -/
def pyLower (s : String) : String := ⟨s.data.map Char.toLower⟩

/-- `FSULinearPC.__init__` lines 149-152 (kernel/linear.py): the weight
temporal-coding flag is set from the Python expression
`hwcfg["rng"].lower() == "race" or "tc"`, whose second disjunct is the
truthiness of the literal string `"tc"`. -/
def fsuLinearPC_wtc (rng : String) : Bool :=
  (pyLower rng == "race") || pyStrTruthy "tc"

/-- Modelled from the spec: the intended construction-time policy choice of
`FSULinearPC` — weight temporal coding exactly when the rng kind is
`"race"` or `"tc"` (spec section 4.4 and its open-question note; the
in-src expression differs by Python operator precedence). -/
def wtcSpecIntent (rng : String) : Bool :=
  (pyLower rng == "race") || (pyLower rng == "tc")

/-- `FSULinearPC.forward` (kernel/linear.py lines 255-260) dispatches on the
`wtc` flag: the weight counter advance per call is `+1` unconditionally in
`FSULinear_PC_wtc` (line 232) and `+ input bit` in `FSULinear_PC_wrc`
(line 194). -/
def fsuLinearPC_wrdxAdvance (rng : String) (wrdx inputBit : Nat) : Nat :=
  if fsuLinearPC_wtc rng then wrdx + 1 else wrdx + inputBit

/-- `UnaryReLU.__init__` (sw/kernel/relu.py lines 23-28) with
`shiftreg=True`: asserts `depth <= 127`; otherwise the shift register is a
depth-long zero buffer, the popcount register starts at 0 and the `init`
flag is set.  State is `(init, buffer, sr_cnt)`. -/
def unaryReLUInitSR (depth : Nat) : Option (Bool × List Nat × Nat) :=
  if 127 < depth then none else some (true, List.replicate depth 0, 0)

/-- `FXPLinear.__init__` bit-budget split (kernel/linear.py lines 462-478)
for a non-tuple `bitwidth`: returns `(bw_input, bw_wght)`, or `none` when a
`ValueError` is raised (odd bitwidth with `keep_res="output"` and
`more_res` outside {"input","weight"}, or an unknown `keep_res`). -/
def fxpLinearInitBW (bitwidth : Nat) (keep_res more_res : String) :
    Option (Nat × Nat) :=
  if keep_res == "input" then some (bitwidth - 1, bitwidth - 1)
  else if keep_res == "output" then
    if bitwidth % 2 == 0 then some (bitwidth / 2 - 1, bitwidth / 2 - 1)
    else if more_res == "input" then some ((bitwidth + 1) / 2 - 1, (bitwidth - 1) / 2 - 1)
    else if more_res == "weight" then some ((bitwidth - 1) / 2 - 1, (bitwidth + 1) / 2 - 1)
    else none
  else none

/-- Modelled from the spec: `ShiftReg` (UnarySim.sw.kernel.shiftreg, not
under src/) — a fixed-capacity ring buffer of emitted bits; a push
prepends the new bit, evicts the oldest, and returns the buffer together
with its population count (spec sections 3 and 4.5). -/
def shiftRegPush (buf : List Nat) (b : Nat) : List Nat × Nat :=
  let buf1 := b :: buf.dropLast
  (buf1, buf1.sum)

/-- `UnaryReLU.UnaryReLU_forward_rc` (sw/kernel/relu.py lines 40-47):
the half-flag is read from the pre-call accumulator, the output is
`input OR (1 - flag)`, and the accumulator is then updated by
`2*output - 1` clamped to `[0, 2^depth - 1]`. -/
def unaryReLU_rc_step (depth : Nat) (acc : Int) (input : Nat) : Nat × Int :=
  let buf_half : Int := 2 ^ (depth - 1)
  let buf_max : Int := 2 ^ depth - 1
  let half_prob_flag : Nat := if buf_half ≤ acc then 1 else 0
  let output : Nat := input ||| (1 - half_prob_flag)
  let acc1 : Int := min (max (acc + (2 * (output : Int) - 1)) 0) buf_max
  (output, acc1)

/-- `UnaryReLU.UnaryReLU_forward_rc_sr` (sw/kernel/relu.py lines 49-58):
on the first call (`init` set) the output is 1 unconditionally; afterwards
the output is `(sr_cnt < depth/2) OR input` (the Python float comparison
`sr_cnt < depth/2` is `2*sr_cnt < depth` on integers).  The emitted output
is then pushed into the shift register and the popcount refreshed. -/
def unaryReLU_rc_sr_step (depth : Nat) (st : Bool × List Nat × Nat) (input : Nat) :
    Nat × (Bool × List Nat × Nat) :=
  let output : Nat :=
    if st.1 then 1
    else (if 2 * st.2.2 < depth then 1 else 0) ||| input
  (output, (false, (shiftRegPush st.2.1 output).1, (shiftRegPush st.2.1 output).2))

/-- `UnaryReLU.UnaryReLU_forward_tc` (sw/kernel/relu.py lines 60-69): the
cycle counter is incremented, the input accumulated, and the output formed
from the updated `cycle`/`acc` values and the threshold
`2^(bitwidth-1)`.  State is `(cycle, acc)`. -/
def unaryReLU_tc_step (bitwidth : Nat) (st : Int × Int) (input : Int) :
    Int × (Int × Int) :=
  let threshold : Int := 2 ^ (bitwidth - 1)
  let cycle1 : Int := st.1 + 1
  let half_cycle_flag : Int := if threshold < cycle1 then 1 else 0
  let acc1 : Int := st.2 + input
  let half_prob_flag : Int := if threshold < acc1 then 1 else 0
  let output : Int :=
    (1 - half_cycle_flag) * (if acc1 ≤ cycle1 then 1 else 0)
      + half_cycle_flag * half_prob_flag * input
  (output, (cycle1, acc1))

/-- C2: scaled-add conservation — over any window of consecutive scaled
`UnaryAdd.forward` calls with {0,1}-valued inputs of a fixed shape, the
accumulator delta plus `bound` times the emitted output sum equals the
exact sum of input bits over the window; the modulo-bound carry neither
gains nor loses a bit. -/
theorem unaryAdd_scaled_conservation (acc : Int) (n : Nat) (hist : List (List Int))
    (hshape : ∀ c ∈ hist, c.length = n)
    (hbits : ∀ c ∈ hist, ∀ b ∈ c, b = 0 ∨ b = 1) :
    ((unaryAddScaledRun acc hist).2 - acc)
        + (n : Int) * (unaryAddScaledRun acc hist).1.sum
      = (hist.map List.sum).sum := by
  induction hist generalizing acc with
  | nil => simp [unaryAddScaledRun]
  | cons c rest ih =>
    obtain rfl : c.length = n := hshape c (List.mem_cons_self c rest)
    have ih2 := ih (unaryAddScaledStep acc c).2
      (fun x hx => hshape x (List.mem_cons_of_mem c hx))
      (fun x hx => hbits x (List.mem_cons_of_mem c hx))
    have hstep : (unaryAddScaledStep acc c).2
        = acc + c.sum - (unaryAddScaledStep acc c).1 * (c.length : Int) := rfl
    simp only [unaryAddScaledRun, List.map_cons, List.sum_cons]
    linear_combination ih2 + hstep

theorem unaryAdd_scaled_conservation_witness :
    ((unaryAddScaledRun 2 [[1, 1, 0], [0, 1, 1]]).2 - 2)
        + (3 : Int) * (unaryAddScaledRun 2 [[1, 1, 0], [0, 1, 1]]).1.sum
      = ([[1, 1, 0], [0, 1, 1]].map List.sum).sum :=
  unaryAdd_scaled_conservation 2 3 [[1, 1, 0], [0, 1, 1]] (by decide) (by decide)

lemma sum_bits_nonneg_le {bits : List Int} (hb : ∀ b ∈ bits, b = 0 ∨ b = 1) :
    0 ≤ bits.sum ∧ bits.sum ≤ (bits.length : Int) := by
  induction bits with
  | nil => simp
  | cons b t ih =>
    have hbmem : b = 0 ∨ b = 1 := hb b (List.mem_cons_self b t)
    obtain ⟨h1, h2⟩ := ih (fun x hx => hb x (List.mem_cons_of_mem b hx))
    simp only [List.sum_cons, List.length_cons]
    rcases hbmem with h | h <;> subst h <;> constructor <;> push_cast <;> omega

lemma unaryAddScaledStep_bounds {acc : Int} {bits : List Int}
    (hb : ∀ b ∈ bits, b = 0 ∨ b = 1)
    (hacc0 : 0 ≤ acc) (haccn : acc < (bits.length : Int)) :
    0 ≤ (unaryAddScaledStep acc bits).2 ∧
      (unaryAddScaledStep acc bits).2 < (bits.length : Int) := by
  obtain ⟨h1, h2⟩ := sum_bits_nonneg_le hb
  have hstep : (unaryAddScaledStep acc bits).2
      = acc + bits.sum
        - (if (bits.length : Int) ≤ acc + bits.sum then 1 else 0) * (bits.length : Int) :=
    rfl
  rw [hstep]
  split_ifs with h <;> omega

lemma unaryAddScaledRun_bounds (n : Nat) (hist : List (List Int))
    (hshape : ∀ c ∈ hist, c.length = n)
    (hbits : ∀ c ∈ hist, ∀ b ∈ c, b = 0 ∨ b = 1) :
    ∀ acc : Int, 0 ≤ acc → acc < (n : Int) →
      0 ≤ (unaryAddScaledRun acc hist).2 ∧ (unaryAddScaledRun acc hist).2 < (n : Int) := by
  induction hist with
  | nil => intro acc h0 h1; simpa [unaryAddScaledRun] using ⟨h0, h1⟩
  | cons c rest ih =>
    intro acc h0 h1
    have hc : c.length = n := hshape c (List.mem_cons_self c rest)
    have h1c : acc < (c.length : Int) := by rw [hc]; exact h1
    have hstep := unaryAddScaledStep_bounds (hbits c (List.mem_cons_self c rest)) h0 h1c
    rw [hc] at hstep
    have hrec := ih (fun x hx => hshape x (List.mem_cons_of_mem c hx))
      (fun x hx => hbits x (List.mem_cons_of_mem c hx))
      (unaryAddScaledStep acc c).2 hstep.1 hstep.2
    simpa [unaryAddScaledRun] using hrec

/-- C9: for scaled `UnaryAdd` fed {0,1}-valued inputs of fixed nonempty
shape with the accumulator starting at 0, the accumulator lies in
`[0, bound)` after every forward call, `bound` being the reduction-axis
size (the history is arbitrary, so the bound holds after each prefix of
calls). -/
theorem unaryAdd_scaled_acc_in_bound (n : Nat) (hist : List (List Int))
    (hn : 0 < n)
    (hshape : ∀ c ∈ hist, c.length = n)
    (hbits : ∀ c ∈ hist, ∀ b ∈ c, b = 0 ∨ b = 1) :
    0 ≤ (unaryAddScaledRun 0 hist).2 ∧ (unaryAddScaledRun 0 hist).2 < (n : Int) :=
  unaryAddScaledRun_bounds n hist hshape hbits 0 le_rfl (by exact_mod_cast hn)

theorem unaryAdd_scaled_acc_in_bound_witness :
    0 ≤ (unaryAddScaledRun 0 [[1, 1, 1, 1], [1, 0, 1, 1], [0, 0, 0, 0]]).2 ∧
      (unaryAddScaledRun 0 [[1, 1, 1, 1], [1, 0, 1, 1], [0, 0, 0, 0]]).2 < (4 : Int) :=
  unaryAdd_scaled_acc_in_bound 4 [[1, 1, 1, 1], [1, 0, 1, 1], [0, 0, 0, 0]]
    (by decide) (by decide) (by decide)

lemma fsuMulBipRun_counter (gen : Nat → Nat) (inputs : List Nat)
    (hb : ∀ i ∈ inputs, i = 0 ∨ i = 1) :
    ∀ st : Nat × Nat,
      (fsuMulBipRun gen st inputs).1 + (fsuMulBipRun gen st inputs).2
        = st.1 + st.2 + inputs.length := by
  induction inputs with
  | nil => intro st; simp [fsuMulBipRun]
  | cons i rest ih =>
    intro st
    have hi : i = 0 ∨ i = 1 := hb i (List.mem_cons_self i rest)
    have hrec := ih (fun x hx => hb x (List.mem_cons_of_mem i hx)) (fsuMulStepBip gen st i).2
    simp only [fsuMulBipRun, List.length_cons]
    rw [hrec]
    rcases hi with h | h <;> subst h <;> simp [fsuMulStepBip] <;> omega

/-- C10: for static bipolar `FSUMul`, every forward call on a {0,1} input
advances `rng_idx` by the input bit and `rng_idx_inv` by its complement,
so starting from `(0, 0)` the invariant
`rng_idx + rng_idx_inv = number of forward calls` holds after every
sequence of calls. -/
theorem fsuMul_bipolar_counter_invariant (gen : Nat → Nat) (inputs : List Nat)
    (hb : ∀ i ∈ inputs, i = 0 ∨ i = 1) :
    (fsuMulBipRun gen (0, 0) inputs).1 + (fsuMulBipRun gen (0, 0) inputs).2
      = inputs.length := by
  simpa using fsuMulBipRun_counter gen inputs hb (0, 0)

theorem fsuMul_bipolar_counter_invariant_witness :
    (fsuMulBipRun (fun k => k % 2) (0, 0) [1, 0, 1]).1
        + (fsuMulBipRun (fun k => k % 2) (0, 0) [1, 0, 1]).2 = 3 :=
  fsuMul_bipolar_counter_invariant (fun k => k % 2) [1, 0, 1] (by decide)

/-- C5: static `FSUMul` — in unipolar mode the output is the AND of the
live input bit with the generated bit at the current counter position and
the counter advances exactly on cycles with a live 1; in bipolar mode the
second generator/counter pair contributes the AND of the complemented
input with the complemented generated bit, its counter advances exactly
on cycles with a live 0, and the output is the OR of the two path bits. -/
theorem fsuMul_static_forward_spec (gen : Nat → Nat) (rng_idx rng_idx_inv : Nat)
    (input : Nat) (hin : input = 0 ∨ input = 1) :
    ((fsuMulStepUni gen rng_idx input).1 = input &&& gen rng_idx) ∧
    ((fsuMulStepUni gen rng_idx input).2 = if input = 1 then rng_idx + 1 else rng_idx) ∧
    ((fsuMulStepBip gen (rng_idx, rng_idx_inv) input).1
      = (input &&& gen rng_idx) ||| ((1 - input) &&& (1 - gen rng_idx_inv))) ∧
    ((fsuMulStepBip gen (rng_idx, rng_idx_inv) input).2.1
      = if input = 1 then rng_idx + 1 else rng_idx) ∧
    ((fsuMulStepBip gen (rng_idx, rng_idx_inv) input).2.2
      = if input = 0 then rng_idx_inv + 1 else rng_idx_inv) := by
  rcases hin with h | h <;> subst h <;>
    exact ⟨rfl, by simp [fsuMulStepUni], rfl,
      by simp [fsuMulStepBip], by simp [fsuMulStepBip]⟩

theorem fsuMul_static_forward_spec_witness :
    ((fsuMulStepUni (fun _ => 1) 2 1).1 = 1 &&& 1) ∧
    ((fsuMulStepUni (fun _ => 1) 2 1).2 = if 1 = 1 then 2 + 1 else 2) ∧
    ((fsuMulStepBip (fun _ => 1) (2, 3) 1).1 = (1 &&& 1) ||| ((1 - 1) &&& (1 - 1))) ∧
    ((fsuMulStepBip (fun _ => 1) (2, 3) 1).2.1 = if 1 = 1 then 2 + 1 else 2) ∧
    ((fsuMulStepBip (fun _ => 1) (2, 3) 1).2.2 = if (1 : Nat) = 0 then 3 + 1 else 3) :=
  fsuMul_static_forward_spec (fun _ => 1) 2 3 1 (Or.inr rfl)

/-- C6: scaled `GainesAdd` — with a valid position into the supplied
random sequence, the forward call fails (the Python assert fires) exactly
when the drawn random value is not strictly below the reduction-axis
size; on success it emits the lane selected by that value and advances
the position by 1 modulo the sequence length. -/
theorem gainesAdd_scaled_mux_spec (rngSeq : List Nat) (rng_idx : Nat) (input : List Int)
    (h : rng_idx < rngSeq.length) :
    (gainesAddScaledStep rngSeq rng_idx input = none
        ↔ input.length ≤ rngSeq.get ⟨rng_idx, h⟩) ∧
    (∀ hr : rngSeq.get ⟨rng_idx, h⟩ < input.length,
      gainesAddScaledStep rngSeq rng_idx input
        = some (input.get ⟨rngSeq.get ⟨rng_idx, h⟩, hr⟩, (rng_idx + 1) % rngSeq.length)) := by
  unfold gainesAddScaledStep
  rw [dif_pos h]
  constructor
  · simp only [List.get_eq_getElem]
    split_ifs with hr <;> simp <;> omega
  · intro hr
    rw [dif_pos hr]

theorem gainesAdd_scaled_mux_spec_witness :
    gainesAddScaledStep [1] 0 [5, 7] = some (7, 0) :=
  (gainesAdd_scaled_mux_spec [1] 0 [5, 7] (by decide)).2 (by decide)

/-- C7: `ConfigurationError` is raised eagerly at construction: bipolar
non-scaled `GainesAdd`, non-static `FSUMul`, shift-register `UnaryReLU`
with depth 128 > 127, and `FXPLinear` with `keep_res="output"`, odd
non-tuple bitwidth and `more_res` outside {"input","weight"} all fail to
construct — no instance state exists, so no forward cycle can run or
mutate state beforehand. -/
theorem construction_errors_eager :
    gainesAddInit "bipolar" false = none ∧
    fsuMulInit false = none ∧
    unaryReLUInitSR 128 = none ∧
    fxpLinearInitBW 7 "output" "bias" = none :=
  ⟨rfl, rfl, rfl, rfl⟩

lemma dropLast_replicate_zero (n : Nat) :
    (List.replicate n (0 : Nat)).dropLast = List.replicate (n - 1) 0 := by
  cases n with
  | zero => rfl
  | succ m =>
    rw [List.replicate_succ', List.dropLast_concat]
    rfl

lemma sum_replicate_zero (n : Nat) : (List.replicate n (0 : Nat)).sum = 0 := by
  simp

/-- C8: `UnaryReLU` with `encode="RC"`, `shiftreg=True` and depth at most
127 — the first forward call outputs 1 regardless of the input, after
which the ring buffer holds a leading 1 and the popcount is 1; every
subsequent call outputs `input OR (popcount < depth/2)`, and the shift
register and popcount are refreshed with the emitted output only after it
is computed. -/
theorem unaryReLU_rc_sr_spec (depth : Nat) (input : Nat) (buf : List Nat) (cnt : Nat)
    (_hd : 0 < depth) (hd127 : depth ≤ 127) (_hin : input = 0 ∨ input = 1) :
    (∀ st0, unaryReLUInitSR depth = some st0 →
      unaryReLU_rc_sr_step depth st0 input
        = (1, (false, 1 :: List.replicate (depth - 1) 0, 1))) ∧
    ((unaryReLU_rc_sr_step depth (false, buf, cnt) input).1
      = input ||| (if 2 * cnt < depth then 1 else 0)) ∧
    ((unaryReLU_rc_sr_step depth (false, buf, cnt) input).2
      = (false,
         (shiftRegPush buf ((unaryReLU_rc_sr_step depth (false, buf, cnt) input).1)).1,
         (shiftRegPush buf ((unaryReLU_rc_sr_step depth (false, buf, cnt) input).1)).2)) := by
  refine ⟨?_, ?_, rfl⟩
  · intro st0 hst0
    have hst : st0 = (true, List.replicate depth 0, 0) := by
      have hnot : ¬ 127 < depth := Nat.not_lt.mpr hd127
      simpa [unaryReLUInitSR, hnot] using hst0.symm
    subst hst
    simp [unaryReLU_rc_sr_step, shiftRegPush, dropLast_replicate_zero, sum_replicate_zero]
  · simp only [unaryReLU_rc_sr_step]
    simp [Nat.lor_comm]

theorem unaryReLU_rc_sr_spec_witness :
    (∀ st0, unaryReLUInitSR 4 = some st0 →
      unaryReLU_rc_sr_step 4 st0 0 = (1, (false, 1 :: List.replicate 3 0, 1))) ∧
    ((unaryReLU_rc_sr_step 4 (false, [1, 0, 1, 0], 2) 0).1
      = 0 ||| (if 2 * 2 < 4 then 1 else 0)) ∧
    ((unaryReLU_rc_sr_step 4 (false, [1, 0, 1, 0], 2) 0).2
      = (false,
         (shiftRegPush [1, 0, 1, 0] ((unaryReLU_rc_sr_step 4 (false, [1, 0, 1, 0], 2) 0).1)).1,
         (shiftRegPush [1, 0, 1, 0] ((unaryReLU_rc_sr_step 4 (false, [1, 0, 1, 0], 2) 0).1)).2)) :=
  unaryReLU_rc_sr_spec 4 0 [1, 0, 1, 0] 2 (by decide) (by decide) (Or.inl rfl)

/-- Output of scaled `UnaryAdd.forward` as a function of the pre-cycle
accumulator and the cycle's input bits alone. -/
def unaryAddOut (acc : Int) (bits : List Int) : Int :=
  if (bits.length : Int) ≤ acc + bits.sum then 1 else 0

/-- Post-call accumulator of scaled `UnaryAdd.forward` as a function of the
pre-cycle accumulator and the cycle's input bits alone. -/
def unaryAddNext (acc : Int) (bits : List Int) : Int :=
  acc + bits.sum - unaryAddOut acc bits * (bits.length : Int)

/-- Output of scaled `UnaryLinear.forward` as a function of the pre-cycle
accumulator and the cycle's kernel value alone. -/
def unaryLinearOut (acc_bound acc k : Int) : Int :=
  if acc_bound ≤ acc + k then 1 else 0

/-- Post-call accumulator of scaled `UnaryLinear.forward` as a function of
the pre-cycle accumulator and the cycle's kernel value alone. -/
def unaryLinearNext (acc_bound acc k : Int) : Int :=
  acc + k - unaryLinearOut acc_bound acc k * acc_bound

/-- Output of scaled `GainesAdd.forward` as a function of the pre-cycle
`rng_idx` and the cycle's input lanes alone. -/
def gainesAddOut (rngSeq : List Nat) (rng_idx : Nat) (input : List Int) : Option Int :=
  if hidx : rng_idx < rngSeq.length then
    if hr : rngSeq.get ⟨rng_idx, hidx⟩ < input.length then
      some (input.get ⟨rngSeq.get ⟨rng_idx, hidx⟩, hr⟩)
    else none
  else none

/-- Post-call `rng_idx` of scaled `GainesAdd.forward` as a function of the
pre-cycle `rng_idx` alone. -/
def gainesAddNext (rngSeq : List Nat) (rng_idx : Nat) : Nat :=
  (rng_idx + 1) % rngSeq.length

/-- Output of static unipolar `FSUMul` as a function of the pre-cycle
counter and the live input bit alone. -/
def fsuMulUniOut (gen : Nat → Nat) (rng_idx input : Nat) : Nat :=
  input &&& gen rng_idx

/-- Post-call counter of static unipolar `FSUMul` as a function of the
pre-cycle counter and the live input bit alone. -/
def fsuMulUniNext (_gen : Nat → Nat) (rng_idx input : Nat) : Nat :=
  rng_idx + input

/-- Output of static bipolar `FSUMul` as a function of the pre-cycle
counters and the live input bit alone. -/
def fsuMulBipOut (gen : Nat → Nat) (st : Nat × Nat) (input : Nat) : Nat :=
  (input &&& gen st.1) ||| ((1 - input) &&& (1 - gen st.2))

/-- Post-call counters of static bipolar `FSUMul` as a function of the
pre-cycle counters and the live input bit alone. -/
def fsuMulBipNext (_gen : Nat → Nat) (st : Nat × Nat) (input : Nat) : Nat × Nat :=
  (st.1 + input, st.2 + (1 - input))

/-- Output of `UnaryReLU_forward_rc` as a function of the pre-cycle
accumulator and the input bit alone. -/
def unaryReLU_rc_out (depth : Nat) (acc : Int) (input : Nat) : Nat :=
  input ||| (1 - (if (2 ^ (depth - 1) : Int) ≤ acc then 1 else 0))

/-- Post-call accumulator of `UnaryReLU_forward_rc` as a function of the
pre-cycle accumulator and the input bit alone. -/
def unaryReLU_rc_next (depth : Nat) (acc : Int) (input : Nat) : Int :=
  min (max (acc + (2 * (unaryReLU_rc_out depth acc input : Int) - 1)) 0) (2 ^ depth - 1)

/-- Output of `UnaryReLU_forward_rc_sr` as a function of the pre-cycle
state and the input bit alone. -/
def unaryReLU_rc_sr_out (depth : Nat) (st : Bool × List Nat × Nat) (input : Nat) : Nat :=
  if st.1 then 1 else (if 2 * st.2.2 < depth then 1 else 0) ||| input

/-- Post-call state of `UnaryReLU_forward_rc_sr` as a function of the
pre-cycle state and the input bit alone. -/
def unaryReLU_rc_sr_next (depth : Nat) (st : Bool × List Nat × Nat) (input : Nat) :
    Bool × List Nat × Nat :=
  (false, (shiftRegPush st.2.1 (unaryReLU_rc_sr_out depth st input)).1,
   (shiftRegPush st.2.1 (unaryReLU_rc_sr_out depth st input)).2)

/-- Output of `UnaryReLU_forward_tc` as a function of the pre-cycle
`(cycle, acc)` state and the input bit alone. -/
def unaryReLU_tc_out (bitwidth : Nat) (st : Int × Int) (input : Int) : Int :=
  (1 - (if (2 ^ (bitwidth - 1) : Int) < st.1 + 1 then 1 else 0))
      * (if st.2 + input ≤ st.1 + 1 then 1 else 0)
    + (if (2 ^ (bitwidth - 1) : Int) < st.1 + 1 then 1 else 0)
      * (if (2 ^ (bitwidth - 1) : Int) < st.2 + input then 1 else 0) * input

/-- Post-call state of `UnaryReLU_forward_tc` as a function of the
pre-cycle state and the input bit alone. -/
def unaryReLU_tc_next (_bitwidth : Nat) (st : Int × Int) (input : Int) : Int × Int :=
  (st.1 + 1, st.2 + input)

/-- C3: for every embedded component step — scaled `UnaryAdd`, scaled
`UnaryLinear`, scaled `GainesAdd`, static uni/bipolar `FSUMul`, and the
`UnaryReLU` rate-coded, shift-register and temporal-coded forwards — the
program-order step factors as `step s i = (out s i, next s i)`: the
cycle-`t` output is determined by the state established through cycle
`t-1` plus the cycle-`t` inputs alone, and the state mutation is a
separate function applied to the same pre-cycle data, never feeding back
into the output. -/
theorem step_output_before_state_update :
    (∀ (acc : Int) (bits : List Int),
      unaryAddScaledStep acc bits = (unaryAddOut acc bits, unaryAddNext acc bits)) ∧
    (∀ (acc_bound acc k : Int),
      unaryLinearScaledStep acc_bound acc k
        = (unaryLinearOut acc_bound acc k, unaryLinearNext acc_bound acc k)) ∧
    (∀ (rngSeq : List Nat) (rng_idx : Nat) (input : List Int),
      gainesAddScaledStep rngSeq rng_idx input
        = (gainesAddOut rngSeq rng_idx input).map
            (fun o => (o, gainesAddNext rngSeq rng_idx))) ∧
    (∀ (gen : Nat → Nat) (rng_idx input : Nat),
      fsuMulStepUni gen rng_idx input
        = (fsuMulUniOut gen rng_idx input, fsuMulUniNext gen rng_idx input)) ∧
    (∀ (gen : Nat → Nat) (st : Nat × Nat) (input : Nat),
      fsuMulStepBip gen st input
        = (fsuMulBipOut gen st input, fsuMulBipNext gen st input)) ∧
    (∀ (depth : Nat) (acc : Int) (input : Nat),
      unaryReLU_rc_step depth acc input
        = (unaryReLU_rc_out depth acc input, unaryReLU_rc_next depth acc input)) ∧
    (∀ (depth : Nat) (st : Bool × List Nat × Nat) (input : Nat),
      unaryReLU_rc_sr_step depth st input
        = (unaryReLU_rc_sr_out depth st input, unaryReLU_rc_sr_next depth st input)) ∧
    (∀ (bitwidth : Nat) (st : Int × Int) (input : Int),
      unaryReLU_tc_step bitwidth st input
        = (unaryReLU_tc_out bitwidth st input, unaryReLU_tc_next bitwidth st input)) := by
  refine ⟨fun acc bits => rfl, fun acc_bound acc k => rfl, ?_,
    fun gen rng_idx input => rfl, fun gen st input => rfl,
    fun depth acc input => rfl, fun depth st input => rfl,
    fun bitwidth st input => rfl⟩
  intro rngSeq rng_idx input
  unfold gainesAddScaledStep gainesAddOut
  by_cases h1 : rng_idx < rngSeq.length
  · rw [dif_pos h1, dif_pos h1]
    by_cases h2 : rngSeq.get ⟨rng_idx, h1⟩ < input.length
    · rw [dif_pos h2, dif_pos h2]
      rfl
    · rw [dif_neg h2, dif_neg h2]
      rfl
  · rw [dif_neg h1, dif_neg h1]
    rfl

/-- C4 divergence exhibit: with rng kind `"Sobol"` the source expression
`hwcfg["rng"].lower() == "race" or "tc"` sets `wtc` to true (the second
Python disjunct is the truthy literal `"tc"`), so `forward` takes the
weight temporal-coded branch and advances the weight counter
unconditionally (here from 5 to 6 on an input bit of 0), whereas the
spec-intended policy flag for `"Sobol"` is false (weight rate-coded,
advance by the input bit). -/
theorem fsuLinearPC_wtc_always_true :
    fsuLinearPC_wtc "Sobol" = true ∧
    fsuLinearPC_wrdxAdvance "Sobol" 5 0 = 6 ∧
    wtcSpecIntent "Sobol" = false := by
  refine ⟨by decide, by decide, by decide⟩
